import Mathlib

/-!
Verification of the `dump-unstable-api` tool
(`src/tools/dump-unstable-api/src/main.rs`).

The tool reads rustdoc JSON documentation sets, scans every named item's
attribute strings for an `unstable(feature = "...")` marker, builds a
feature-name to item-id index, and reconstructs the module path leading to
an item.  The development below embeds the tool's data model and operations
shallowly: `HashMap`s become association lists carried in one particular
iteration order, fallible/panicking code returns `Except String`, and the
external attribute grammar (the `syn` crate) is modelled from the
specification's description of it.
-/

set_option autoImplicit false

namespace DumpUnstableApi

/-- `rustdoc_types::Id`: an opaque token with equality only. -/
abbrev Id := String

/-- The fragment of `syn::Lit` this tool inspects: string literals are
distinguished, every other literal kind is collapsed into `other`. -/
inductive Lit where
  | str (s : String)
  | other
  deriving DecidableEq

mutual

/-- `syn::Meta` (version 1.x): a path, a parenthesized list
`path(entries...)`, or a name-value pair `path = lit`.  The path is kept as
its list of segments, as in `syn::Path`. -/
inductive Meta where
  | mpath (path : List String)
  | mlist (path : List String) (nested : List NestedMeta)
  | nameValue (path : List String) (lit : Lit)

/-- `syn::NestedMeta`: an element of a meta list. -/
inductive NestedMeta where
  | meta (m : Meta)
  | lit (l : Lit)

end

/-- `rustdoc_types::Item`, restricted to the two fields the tool reads:
the optional `name` and the raw attribute strings `attrs`. -/
structure Item where
  name : Option String
  attrs : List String
  deriving DecidableEq

/-- `rustdoc_types::ItemSummary`, restricted to the `path` field: the
fully-qualified path as a list of segment names. -/
structure ItemSummary where
  path : List String
  deriving DecidableEq

/-- `rustdoc_types::Crate`, restricted to the fields the tool reads.  The
two `HashMap`s are embedded as association lists; the list order stands for
one iteration order of the map, and the keys of a real `HashMap` are
pairwise distinct. -/
structure Crate where
  index : List (Id × Item)
  paths : List (Id × ItemSummary)
  deriving DecidableEq

/-! ### The attribute grammar

`main.rs` delegates attribute parsing to the external `syn` crate
(`syn::Attribute::parse_outer.parse_str` followed by `parse_meta`), whose
code is not part of this repository.

Modelled from the spec: the parser below follows the specification's
description of that grammar — "a single outer-style attribute expression
... a named marker optionally followed by a parenthesized comma-separated
list of `key = "value"` or bare-path entries"; string values are plain
string literals.  As the spec's notation does, it elides the `#[` `]`
wrapper around the marker.  Following the external parser's documented
behaviour (`parse_outer` parses *zero or more* attributes), blank input
parses successfully to an empty attribute list. -/

/-- Skip leading whitespace. -/
def skipWs : List Char → List Char
  | [] => []
  | c :: rest => if c.isWhitespace then skipWs rest else c :: rest

/-- Is `c` a character that may start an identifier? -/
def isIdentStart (c : Char) : Bool := c.isAlpha || c = '_'

/-- Is `c` a character that may continue an identifier? -/
def isIdentCont (c : Char) : Bool := c.isAlphanum || c = '_'

/-- Lex one identifier; `none` if the input does not start with one. -/
def lexIdent (cs : List Char) : Option (String × List Char) :=
  match cs with
  | [] => none
  | c :: rest =>
    if isIdentStart c then
      some (String.mk (c :: rest.takeWhile isIdentCont), rest.dropWhile isIdentCont)
    else none

/-- Lex the body of a string literal after the opening quote, up to and
consuming the closing quote.  `none` on an unterminated literal. -/
def lexStrBody : List Char → Option (List Char × List Char)
  | [] => none
  | c :: rest =>
    if c = '"' then some ([], rest)
    else (lexStrBody rest).map (fun p => (c :: p.1, p.2))

/-- Lex one literal: a plain string literal, or a numeric literal (whose
value the tool never inspects, collapsed into `Lit.other`). -/
def lexLit (cs : List Char) : Option (Lit × List Char) :=
  match cs with
  | [] => none
  | c :: rest =>
    if c = '"' then (lexStrBody rest).map (fun p => (Lit.str (String.mk p.1), p.2))
    else if c.isDigit then
      some (Lit.other, rest.dropWhile (fun d => d.isDigit || d = '.'))
    else none

mutual

/-- Parse one entry of a meta list: a literal, a `key = lit` pair, a nested
`path(...)` list, or a bare path.  `fuel` bounds the recursion depth; the
top-level call supplies more fuel than any input of that length can use. -/
def parseEntry : Nat → List Char → Option (NestedMeta × List Char)
  | 0, _ => none
  | fuel + 1, cs =>
    let cs := skipWs cs
    match lexLit cs with
    | some (l, rest) => some (.lit l, rest)
    | none =>
      match lexIdent cs with
      | none => none
      | some (id, rest) =>
        match skipWs rest with
        | '=' :: rest2 =>
          (lexLit (skipWs rest2)).map (fun p => (.meta (.nameValue [id] p.1), p.2))
        | '(' :: rest2 =>
          (parseEntryList fuel rest2).map (fun p => (.meta (.mlist [id] p.1), p.2))
        | other => some (.meta (.mpath [id]), other)

/-- Parse the comma-separated entries of a meta list up to and consuming
the closing parenthesis (trailing commas allowed, as in the grammar). -/
def parseEntryList : Nat → List Char → Option (List NestedMeta × List Char)
  | 0, _ => none
  | fuel + 1, cs =>
    match skipWs cs with
    | ')' :: rest => some ([], rest)
    | cs2 =>
      match parseEntry fuel cs2 with
      | none => none
      | some (e, rest) =>
        match skipWs rest with
        | ')' :: rest2 => some ([e], rest2)
        | ',' :: rest2 =>
          match parseEntryList fuel rest2 with
          | none => none
          | some (es, rest3) => some (e :: es, rest3)
        | _ => none

end

/-- Parse one attribute expression: a marker identifier optionally followed
by a parenthesized entry list or by `= lit`. -/
def parseAttrExpr (cs : List Char) : Option (Meta × List Char) :=
  match lexIdent (skipWs cs) with
  | none => none
  | some (id, rest) =>
    match skipWs rest with
    | '(' :: rest2 =>
      (parseEntryList (rest2.length + 1) rest2).map (fun p => (.mlist [id] p.1, p.2))
    | '=' :: rest2 =>
      (lexLit (skipWs rest2)).map (fun p => (.nameValue [id] p.1, p.2))
    | other => some (.mpath [id], other)

/-- Modelled from the spec: `syn::Attribute::parse_outer.parse_str`, which
parses zero or more outer attributes and requires the whole input to be
consumed.  Blank input yields zero attributes (`some []`); otherwise a
single attribute expression must span the input.  `none` is a parse
error. -/
def parse_outer_str (s : String) : Option (List Meta) :=
  match skipWs s.toList with
  | [] => some []
  | cs =>
    match parseAttrExpr cs with
    | none => none
    | some (m, rest) => if skipWs rest = [] then some [m] else none

/-! ### The attribute parser (`main.rs` lines 13–15 and 33–70) -/

/-- `is_ident` (main.rs line 13): `Ident` equality ignores spans, so this
is string equality. -/
def is_ident (ident name : String) : Bool := ident = name

/-- `syn::Path::get_ident`: the single segment of a one-segment path. -/
def path_get_ident : List String → Option String
  | [i] => some i
  | _ => none

/-- The path of a `Meta` (`syn::Meta::path`). -/
def meta_path : Meta → List String
  | .mpath p => p
  | .mlist p _ => p
  | .nameValue p _ => p

/-- `get_feature_name` (main.rs lines 48–61): given a nested meta like
`feature = "xyz"`, return `xyz`; anything else yields `none`. -/
def get_feature_name : NestedMeta → Option String
  | .meta (.nameValue p l) =>
    match path_get_ident p with
    | none => none
    | some i =>
      if ¬ is_ident i "feature" then none
      else match l with
        | .str s => some s
        | _ => none
  | _ => none

/-- The attribute-scanning closure (main.rs lines 33–70) applied to one
attribute string.  `.ok none` is "no match", `.ok (some f)` is a found
feature name, `.error` models a panic: `v.swap_remove(0)` on line 34
panics when the parsed attribute list is empty. -/
def parse_unstable_feature (attr : String) : Except String (Option String) :=
  match parse_outer_str attr with
  | none => .ok none
  | some [] => .error "swap_remove index (is 0) should be < len (is 0)"
  | some (parsed :: _) =>
    match path_get_ident (meta_path parsed) with
    | none => .ok none
    | some ident =>
      if ¬ is_ident ident "unstable" then .ok none
      else
        match parsed with
        | .mlist _ nested => .ok (List.findSome? get_feature_name nested)
        | _ => .ok none

/-- `item.attrs.iter().find_map(...)` (main.rs line 33): scan the attribute
strings in order, stopping at the first feature name; a panic in the
closure propagates. -/
def find_map_feature : List String → Except String (Option String)
  | [] => .ok none
  | a :: rest =>
    match parse_unstable_feature a with
    | .error e => .error e
    | .ok (some f) => .ok (some f)
    | .ok none => find_map_feature rest

/-! ### Association lists standing for `HashMap`s -/

/-- `HashMap::get`: the value bound to `k`, if any. -/
def lookupA {α β : Type} [DecidableEq α] : List (α × β) → α → Option β
  | [], _ => none
  | (k', v) :: rest, k => if k' = k then some v else lookupA rest k

/-- `HashMap::insert`: replace the binding of `k` if present, otherwise add
one. -/
def insertAssoc {α β : Type} [DecidableEq α] : List (α × β) → α → β → List (α × β)
  | [], k, v => [(k, v)]
  | (k', v') :: rest, k, v =>
    if k' = k then (k, v) :: rest else (k', v') :: insertAssoc rest k v

/-! ### The metadata loader (main.rs lines 17–89)

Filesystem enumeration and JSON deserialization are external I/O shells:
the loader below starts from the already-deserialized list of `Crate`s in
directory order.  A failed open/deserialize aborts the run before the code
modelled here executes. -/

/-- The per-crate scan (main.rs lines 28–74): walk `krate.index` in
iteration order; skip unnamed items; on the first matching attribute,
record `(id, feature)` in the crate-local map. -/
def crate_items_go : List (Id × Item) → List (Id × String) → Except String (List (Id × String))
  | [], acc => .ok acc
  | (id, item) :: rest, acc =>
    if item.name.isNone then crate_items_go rest acc
    else
      match find_map_feature item.attrs with
      | .error e => .error e
      | .ok (some feat) => crate_items_go rest (insertAssoc acc id feat)
      | .ok none => crate_items_go rest acc

/-- The crate-local `crate_items` map of one crate's index. -/
def crate_items_of (index : List (Id × Item)) : Except String (List (Id × String)) :=
  crate_items_go index []

/-- Merging one crate's local map into the run-wide `all_items` map
(main.rs lines 76–78): plain `HashMap::insert`, so a reused id is
overwritten by the later crate. -/
def merge_items : List (Id × String) → List (Id × String) → List (Id × String)
  | acc, [] => acc
  | acc, (id, feat) :: rest => merge_items (insertAssoc acc id feat) rest

/-- The run-wide `all_items` accumulation over all crates in file order
(main.rs lines 22–81). -/
def all_items_go : List Crate → List (Id × String) → Except String (List (Id × String))
  | [], acc => .ok acc
  | c :: rest, acc =>
    match crate_items_of c.index with
    | .error e => .error e
    | .ok ci => all_items_go rest (merge_items acc ci)

/-- The run-wide identifier-to-feature map of a list of crates. -/
def all_items_of (crates : List Crate) : Except String (List (Id × String)) :=
  all_items_go crates []

/-- `out.entry(feature).or_default().push(id)` (main.rs line 85). -/
def pushEntry : List (String × List Id) → String → Id → List (String × List Id)
  | [], feat, id => [(feat, [id])]
  | (f, ids) :: rest, feat, id =>
    if f = feat then (f, ids ++ [id]) :: rest
    else (f, ids) :: pushEntry rest feat id

/-- The inversion loop (main.rs lines 83–86), folding over `all_items` in
the given iteration order. -/
def invert_go : List (String × List Id) → List (Id × String) → List (String × List Id)
  | out, [] => out
  | out, (id, feat) :: rest => invert_go (pushEntry out feat id) rest

/-- Invert the identifier-to-feature map into the FeatureIndex. -/
def invert (l : List (Id × String)) : List (String × List Id) :=
  invert_go [] l

/-- `load_rustdoc_json_metadata` (main.rs lines 17–89) on deserialized
input, with `all_items` iterated for the inversion in the order the
association list carries. -/
def load_rustdoc_json_metadata (crates : List Crate) :
    Except String (List Crate × List (String × List Id)) :=
  match all_items_of crates with
  | .error e => .error e
  | .ok l => .ok (crates, invert l)

/-- One run of the metadata loader, with the iteration order of the final
`all_items` `HashMap` made explicit as a reordering function `pi`: Rust's
`HashMap` iterates in an unspecified, per-process-seeded order, so a run
corresponds to some `pi` that permutes the map's entries. -/
def run_metadata_loader (pi : List (Id × String) → List (Id × String))
    (crates : List Crate) : Except String (List Crate × List (String × List Id)) :=
  match all_items_of crates with
  | .error e => .error e
  | .ok l => .ok (crates, invert (pi l))

/-! ### The path reconstructor (main.rs lines 91–114) -/

/-- `extract_item_tree_for_id` (main.rs lines 91–114): collect the path
summaries of `id` across all crates; `assert_eq!(path.len(), 1)` (line 93)
panics unless exactly one crate has one, modelled as `.error`.  The
stateful `built`/`clone` accumulation of lines 94–101 produces, for each
`k < n`, the length-`(k+1)` leading slice of the path; line 102–112 resolve
each candidate to the first path-table entry with that exact path, one per
crate that has one. -/
def extract_item_tree_for_id (crates : List Crate) (id : Id) :
    Except String (List (List Id)) :=
  match crates.filterMap (fun c => lookupA c.paths id) with
  | [p] =>
    .ok ((List.range p.path.length).map (fun k =>
      crates.filterMap (fun c =>
        (c.paths.find? (fun e => decide (e.2.path = p.path.take (k + 1)))).map Prod.fst)))
  | _ => .error "assertion failed: path.len() == 1"

/-! ### Declaration lookup (main.rs lines 116–123) -/

/-- `get_item_for_id` (main.rs lines 116–123): search each crate's index in
list order, returning the first hit.  The Rust function clones the item and
mutates nothing; the model is a pure function. -/
def get_item_for_id (crates : List Crate) (id : Id) : Option Item :=
  match crates with
  | [] => none
  | c :: rest =>
    match lookupA c.index id with
    | some item => some item
    | none => get_item_for_id rest id

/-! ### Derived notions used by the statements -/

/-- All identifiers of a FeatureIndex, in bucket order. -/
def allIds (out : List (String × List Id)) : List Id :=
  (out.map Prod.snd).flatten

/-- The identifiers of `l` carrying feature `f`, in list order. -/
def bucket (l : List (Id × String)) (f : String) : List Id :=
  (l.filter (fun p => decide (p.2 = f))).map Prod.fst

/-- Does the attribute-string list carry a recognized unstable feature
marker?  (`true` exactly when the in-order scan finds a feature name.) -/
def is_marked (attrs : List String) : Bool :=
  match find_map_feature attrs with
  | .ok (some _) => true
  | _ => false

/-! ### Association-list lemmas -/

section AssocLemmas

variable {α β : Type} [DecidableEq α]

theorem lookupA_insertAssoc_self (m : List (α × β)) (k : α) (v : β) :
    lookupA (insertAssoc m k v) k = some v := by
  induction m with
  | nil => simp [insertAssoc, lookupA]
  | cons p rest ih =>
    by_cases h : p.1 = k
    · simp [insertAssoc, h, lookupA]
    · simp only [insertAssoc, h, if_false, lookupA, ih]

theorem lookupA_insertAssoc_ne (m : List (α × β)) (k k' : α) (v : β) (h : k' ≠ k) :
    lookupA (insertAssoc m k v) k' = lookupA m k' := by
  induction m with
  | nil => simp [insertAssoc, lookupA, Ne.symm h]
  | cons p rest ih =>
    obtain ⟨pk, pv⟩ := p
    by_cases hk : pk = k
    · subst hk
      simp [insertAssoc, lookupA, Ne.symm h]
    · simp only [insertAssoc, hk, if_false, lookupA, ih]

theorem lookupA_eq_none_iff (m : List (α × β)) (k : α) :
    lookupA m k = none ↔ k ∉ m.map Prod.fst := by
  induction m with
  | nil => simp [lookupA]
  | cons p rest ih =>
    obtain ⟨pk, pv⟩ := p
    by_cases h : pk = k
    · simp [lookupA, h]
    · simp only [lookupA, h, if_false, List.map_cons, List.mem_cons, not_or, ih]
      constructor
      · intro hm
        exact ⟨Ne.symm h, hm⟩
      · intro hm
        exact hm.2

theorem lookupA_isSome_iff (m : List (α × β)) (k : α) :
    (lookupA m k).isSome = true ↔ k ∈ m.map Prod.fst := by
  rw [Option.isSome_iff_ne_none, ne_eq, lookupA_eq_none_iff, not_not]

theorem lookupA_mem {m : List (α × β)} {k : α} {v : β} (h : lookupA m k = some v) :
    (k, v) ∈ m := by
  induction m with
  | nil => simp [lookupA] at h
  | cons p rest ih =>
    obtain ⟨pk, pv⟩ := p
    by_cases hk : pk = k
    · simp only [lookupA, hk, if_true, Option.some.injEq] at h
      subst hk
      subst h
      exact List.mem_cons_self _ _
    · simp only [lookupA, hk, if_false] at h
      exact List.mem_cons_of_mem _ (ih h)

theorem lookupA_of_mem_nodup {m : List (α × β)} {k : α} {v : β}
    (hn : (m.map Prod.fst).Nodup) (h : (k, v) ∈ m) : lookupA m k = some v := by
  induction m with
  | nil => simp at h
  | cons p rest ih =>
    simp only [List.map_cons, List.nodup_cons] at hn
    rcases List.mem_cons.1 h with h1 | h1
    · rw [← h1]
      simp [lookupA]
    · have hk : p.1 ≠ k := by
        intro he
        exact hn.1 (he ▸ List.mem_map_of_mem Prod.fst h1)
      simp only [lookupA, hk, if_false]
      exact ih hn.2 h1

theorem mem_keys_insertAssoc (m : List (α × β)) (k : α) (v : β) (a : α) :
    a ∈ (insertAssoc m k v).map Prod.fst ↔ a ∈ m.map Prod.fst ∨ a = k := by
  induction m with
  | nil => simp [insertAssoc]
  | cons p rest ih =>
    by_cases h : p.1 = k
    · subst h
      simp [insertAssoc]
      tauto
    · simp [insertAssoc, h, ih]
      tauto

theorem nodup_keys_insertAssoc (m : List (α × β)) (k : α) (v : β)
    (hn : (m.map Prod.fst).Nodup) : ((insertAssoc m k v).map Prod.fst).Nodup := by
  induction m with
  | nil => simp [insertAssoc]
  | cons p rest ih =>
    simp only [List.map_cons, List.nodup_cons] at hn
    by_cases h : p.1 = k
    · subst h
      simpa [insertAssoc] using hn
    · simp only [insertAssoc, h, if_false, List.map_cons, List.nodup_cons]
      refine ⟨fun hm => ?_, ih hn.2⟩
      rcases (mem_keys_insertAssoc rest k v p.1).1 hm with h1 | h1
      · exact hn.1 h1
      · exact h h1

theorem insertAssoc_of_not_mem {m : List (α × β)} {k : α} (v : β)
    (h : k ∉ m.map Prod.fst) : insertAssoc m k v = m ++ [(k, v)] := by
  induction m with
  | nil => simp [insertAssoc]
  | cons p rest ih =>
    simp only [List.map_cons, List.mem_cons, not_or] at h
    have hk : p.1 ≠ k := Ne.symm h.1
    simp only [insertAssoc, hk, if_false, List.cons_append, List.cons.injEq, true_and]
    exact ih h.2

end AssocLemmas

/-! ### Merge lemmas -/

theorem keys_merge_items (ci : List (Id × String)) :
    ∀ (acc : List (Id × String)) (a : Id),
      a ∈ (merge_items acc ci).map Prod.fst ↔
        a ∈ acc.map Prod.fst ∨ a ∈ ci.map Prod.fst := by
  induction ci with
  | nil => simp [merge_items]
  | cons p rest ih =>
    intro acc a
    rw [show merge_items acc (p :: rest) = merge_items (insertAssoc acc p.1 p.2) rest from rfl,
      ih, mem_keys_insertAssoc]
    simp
    tauto

theorem nodup_keys_merge_items (ci : List (Id × String)) :
    ∀ (acc : List (Id × String)), (acc.map Prod.fst).Nodup →
      ((merge_items acc ci).map Prod.fst).Nodup := by
  induction ci with
  | nil => intro acc h; exact h
  | cons p rest ih =>
    intro acc h
    exact ih _ (nodup_keys_insertAssoc acc p.1 p.2 h)

theorem lookupA_merge_items (ci : List (Id × String)) :
    ∀ (acc : List (Id × String)) (k : Id), (ci.map Prod.fst).Nodup →
      lookupA (merge_items acc ci) k =
        match lookupA ci k with
        | some v => some v
        | none => lookupA acc k := by
  induction ci with
  | nil => intro acc k _; simp [merge_items, lookupA]
  | cons p rest ih =>
    intro acc k hn
    simp only [List.map_cons, List.nodup_cons] at hn
    rw [show merge_items acc (p :: rest) = merge_items (insertAssoc acc p.1 p.2) rest from rfl,
      ih _ _ hn.2]
    by_cases hk : p.1 = k
    · subst hk
      have hr : lookupA rest p.1 = none :=
        (lookupA_eq_none_iff rest p.1).2 hn.1
      simp [lookupA, hr, lookupA_insertAssoc_self]
    · have : lookupA (insertAssoc acc p.1 p.2) k = lookupA acc k :=
        lookupA_insertAssoc_ne acc p.1 k p.2 (fun he => hk he.symm)
      simp [lookupA, hk, this]

theorem merge_items_disjoint (ci : List (Id × String)) :
    ∀ (acc : List (Id × String)), (ci.map Prod.fst).Nodup →
      (∀ k ∈ ci.map Prod.fst, k ∉ acc.map Prod.fst) →
      merge_items acc ci = acc ++ ci := by
  induction ci with
  | nil => intro acc _ _; simp [merge_items]
  | cons p rest ih =>
    intro acc hn hd
    simp only [List.map_cons, List.nodup_cons] at hn
    rw [show merge_items acc (p :: rest) = merge_items (insertAssoc acc p.1 p.2) rest from rfl]
    rw [insertAssoc_of_not_mem p.2 (hd p.1 (by simp))]
    rw [ih _ hn.2 ?_]
    · simp
    · intro k hk
      simp only [List.map_append, List.mem_append, not_or]
      refine ⟨hd k (by simp [hk]), ?_⟩
      simp only [List.map_cons, List.map_nil, List.mem_singleton]
      intro he
      exact hn.1 (he ▸ hk)

/-! ### Inversion lemmas -/

theorem allIds_pushEntry (out : List (String × List Id)) (f : String) (id : Id) :
    (allIds (pushEntry out f id)).Perm (allIds out ++ [id]) := by
  induction out with
  | nil => simp [pushEntry, allIds]
  | cons p rest ih =>
    by_cases h : p.1 = f
    · simp only [pushEntry, h, if_true, allIds, List.map_cons, List.flatten_cons]
      rw [List.append_assoc, List.append_assoc]
      exact (List.perm_append_left_iff p.2).2 List.perm_append_comm
    · simp only [pushEntry, h, if_false, allIds, List.map_cons, List.flatten_cons]
      rw [List.append_assoc]
      exact (List.perm_append_left_iff p.2).2 ih

theorem allIds_invert_go (l : List (Id × String)) :
    ∀ (out : List (String × List Id)),
      (allIds (invert_go out l)).Perm (allIds out ++ l.map Prod.fst) := by
  induction l with
  | nil => intro out; simp [invert_go]
  | cons p rest ih =>
    intro out
    rw [show invert_go out (p :: rest) = invert_go (pushEntry out p.2 p.1) rest from rfl]
    refine (ih _).trans ?_
    rw [List.map_cons, show allIds out ++ p.1 :: rest.map Prod.fst
      = (allIds out ++ [p.1]) ++ rest.map Prod.fst by simp]
    exact (allIds_pushEntry out p.2 p.1).append_right _

theorem allIds_invert (l : List (Id × String)) :
    (allIds (invert l)).Perm (l.map Prod.fst) := by
  simpa [allIds, invert] using allIds_invert_go l []

theorem lookupA_pushEntry_self (out : List (String × List Id)) (f : String) (id : Id) :
    lookupA (pushEntry out f id) f = some ((lookupA out f).getD [] ++ [id]) := by
  induction out with
  | nil => simp [pushEntry, lookupA]
  | cons p rest ih =>
    by_cases h : p.1 = f
    · simp [pushEntry, h, lookupA]
    · simp [pushEntry, h, lookupA, ih]

theorem lookupA_pushEntry_ne (out : List (String × List Id)) (f f' : String) (id : Id)
    (h : f' ≠ f) : lookupA (pushEntry out f id) f' = lookupA out f' := by
  induction out with
  | nil => simp [pushEntry, lookupA, Ne.symm h]
  | cons p rest ih =>
    obtain ⟨pf, pids⟩ := p
    by_cases hp : pf = f
    · subst hp
      simp [pushEntry, lookupA, Ne.symm h]
    · simp [pushEntry, hp, lookupA, ih]

theorem lookupA_invert_go (l : List (Id × String)) :
    ∀ (out : List (String × List Id)) (f : String),
      lookupA (invert_go out l) f =
        match lookupA out f with
        | some v => some (v ++ bucket l f)
        | none => if bucket l f = [] then none else some (bucket l f) := by
  induction l with
  | nil =>
    intro out f
    simp only [invert_go, bucket, List.filter_nil, List.map_nil, List.append_nil]
    match h : lookupA out f with
    | some v => simp
    | none => simp
  | cons p rest ih =>
    intro out f
    rw [show invert_go out (p :: rest) = invert_go (pushEntry out p.2 p.1) rest from rfl, ih]
    by_cases h : p.2 = f
    · subst h
      rw [lookupA_pushEntry_self]
      have hb : bucket (p :: rest) p.2 = p.1 :: bucket rest p.2 := by
        simp [bucket, List.filter_cons]
      rw [hb]
      match hl : lookupA out p.2 with
      | some v => simp [hl]
      | none => simp [hl]
    · rw [lookupA_pushEntry_ne out p.2 f p.1 (fun he => h he.symm)]
      have hb : bucket (p :: rest) f = bucket rest f := by
        simp [bucket, List.filter_cons, h]
      rw [hb]

theorem lookupA_invert (l : List (Id × String)) (f : String) :
    lookupA (invert l) f =
      if bucket l f = [] then none else some (bucket l f) := by
  have := lookupA_invert_go l [] f
  simpa [invert, lookupA] using this

theorem bucket_perm {l1 l2 : List (Id × String)} (h : l1.Perm l2) (f : String) :
    (bucket l1 f).Perm (bucket l2 f) :=
  (h.filter _).map _

/-! ### Per-crate scan lemmas -/

theorem crate_items_go_ok_nodup :
    ∀ (index : List (Id × Item)) (acc l : List (Id × String)),
      (acc.map Prod.fst).Nodup → crate_items_go index acc = .ok l →
      (l.map Prod.fst).Nodup := by
  intro index
  induction index with
  | nil =>
    intro acc l hn h
    simp only [crate_items_go, Except.ok.injEq] at h
    exact h ▸ hn
  | cons p rest ih =>
    intro acc l hn h
    obtain ⟨k, it⟩ := p
    by_cases hname : it.name.isNone
    · simp only [crate_items_go, hname, if_true] at h
      exact ih acc l hn h
    · simp only [crate_items_go, hname, if_false] at h
      match hf : find_map_feature it.attrs with
      | .error e => rw [hf] at h; exact absurd h (by simp)
      | .ok (some f) =>
        rw [hf] at h
        exact ih _ l (nodup_keys_insertAssoc acc k f hn) h
      | .ok none => rw [hf] at h; exact ih acc l hn h

theorem crate_items_go_mem_keys :
    ∀ (index : List (Id × Item)) (acc l : List (Id × String)),
      crate_items_go index acc = .ok l →
      ∀ k, k ∈ l.map Prod.fst → k ∈ acc.map Prod.fst ∨ k ∈ index.map Prod.fst := by
  intro index
  induction index with
  | nil =>
    intro acc l h k hk
    simp only [crate_items_go, Except.ok.injEq] at h
    exact Or.inl (h ▸ hk)
  | cons p rest ih =>
    intro acc l h k hk
    obtain ⟨k0, it⟩ := p
    by_cases hname : it.name.isNone
    · simp only [crate_items_go, hname, if_true] at h
      rcases ih acc l h k hk with h1 | h1
      · exact Or.inl h1
      · exact Or.inr (by simp [h1])
    · simp only [crate_items_go, hname, if_false] at h
      match hf : find_map_feature it.attrs with
      | .error e => rw [hf] at h; exact absurd h (by simp)
      | .ok (some f) =>
        rw [hf] at h
        rcases ih _ l h k hk with h1 | h1
        · rcases (mem_keys_insertAssoc acc k0 f k).1 h1 with h2 | h2
          · exact Or.inl h2
          · exact Or.inr (by simp [h2])
        · exact Or.inr (by simp [h1])
      | .ok none =>
        rw [hf] at h
        rcases ih acc l h k hk with h1 | h1
        · exact Or.inl h1
        · exact Or.inr (by simp [h1])

theorem crate_items_go_lookup :
    ∀ (index : List (Id × Item)) (acc l : List (Id × String)),
      (index.map Prod.fst).Nodup → crate_items_go index acc = .ok l →
      ∀ id, lookupA l id =
        match lookupA index id with
        | none => lookupA acc id
        | some it =>
          if it.name.isNone then lookupA acc id
          else
            match find_map_feature it.attrs with
            | .ok (some f) => some f
            | _ => lookupA acc id := by
  intro index
  induction index with
  | nil =>
    intro acc l _ h id
    simp only [crate_items_go, Except.ok.injEq] at h
    simp [lookupA, ← h]
  | cons p rest ih =>
    intro acc l hn h id
    obtain ⟨k0, it⟩ := p
    simp only [List.map_cons, List.nodup_cons] at hn
    by_cases hk : k0 = id
    · subst hk
      have hrest : lookupA rest k0 = none := (lookupA_eq_none_iff rest k0).2 hn.1
      by_cases hname : it.name.isNone
      · simp only [crate_items_go, hname, if_true] at h
        rw [ih acc l hn.2 h k0, hrest]
        simp [lookupA, hname]
      · simp only [crate_items_go, hname, if_false] at h
        match hf : find_map_feature it.attrs with
        | .error e => rw [hf] at h; exact absurd h (by simp)
        | .ok (some f) =>
          rw [hf] at h
          rw [ih _ l hn.2 h k0, hrest, lookupA_insertAssoc_self]
          simp [lookupA, hname, hf]
        | .ok none =>
          rw [hf] at h
          rw [ih acc l hn.2 h k0, hrest]
          simp [lookupA, hname, hf]
    · have hl : lookupA ((k0, it) :: rest) id = lookupA rest id := by
        simp [lookupA, hk]
      rw [hl]
      by_cases hname : it.name.isNone
      · simp only [crate_items_go, hname, if_true] at h
        exact ih acc l hn.2 h id
      · simp only [crate_items_go, hname, if_false] at h
        match hf : find_map_feature it.attrs with
        | .error e => rw [hf] at h; exact absurd h (by simp)
        | .ok (some f) =>
          rw [hf] at h
          have hacc : lookupA (insertAssoc acc k0 f) id = lookupA acc id :=
            lookupA_insertAssoc_ne acc k0 id f (Ne.symm hk)
          rw [ih _ l hn.2 h id, hacc]
        | .ok none =>
          rw [hf] at h
          exact ih acc l hn.2 h id

theorem crate_items_go_length :
    ∀ (index : List (Id × Item)) (acc l : List (Id × String)),
      (index.map Prod.fst).Nodup →
      (∀ k ∈ index.map Prod.fst, k ∉ acc.map Prod.fst) →
      crate_items_go index acc = .ok l →
      l.length = acc.length +
        (index.filter (fun p => p.2.name.isSome && is_marked p.2.attrs)).length := by
  intro index
  induction index with
  | nil =>
    intro acc l _ _ h
    simp only [crate_items_go, Except.ok.injEq] at h
    simp [← h]
  | cons p rest ih =>
    intro acc l hn hd h
    obtain ⟨k0, it⟩ := p
    simp only [List.map_cons, List.nodup_cons] at hn
    by_cases hname : it.name.isNone
    · simp only [crate_items_go, hname, if_true] at h
      have hs : it.name.isSome = false := by
        cases hit : it.name
        · rfl
        · rw [hit] at hname; exact absurd hname (by simp)
      rw [ih acc l hn.2 (fun k hk => hd k (by simp [hk])) h]
      simp [List.filter_cons, hs]
    · simp only [crate_items_go, hname, if_false] at h
      have hs : it.name.isSome = true := by
        cases hit : it.name
        · rw [hit] at hname; exact absurd rfl hname
        · rfl
      match hf : find_map_feature it.attrs with
      | .error e => rw [hf] at h; exact absurd h (by simp)
      | .ok (some f) =>
        rw [hf] at h
        have hnotin : k0 ∉ acc.map Prod.fst := hd k0 (by simp)
        have hins : insertAssoc acc k0 f = acc ++ [(k0, f)] :=
          insertAssoc_of_not_mem f hnotin
        have hd2 : ∀ k ∈ rest.map Prod.fst, k ∉ (insertAssoc acc k0 f).map Prod.fst := by
          intro k hk
          rw [hins]
          simp only [List.map_append, List.mem_append, not_or]
          refine ⟨hd k (by simp [hk]), ?_⟩
          simp only [List.map_cons, List.map_nil, List.mem_singleton]
          intro he
          exact hn.1 (he ▸ hk)
        have := ih _ l hn.2 hd2 h
        rw [hins] at this
        simp only [List.length_append, List.length_cons, List.length_nil] at this
        rw [this]
        have hm : is_marked it.attrs = true := by simp [is_marked, hf]
        simp only [List.filter_cons, hs, hm, Bool.and_self, if_true, List.length_cons]
        omega
      | .ok none =>
        rw [hf] at h
        have hm : is_marked it.attrs = false := by simp [is_marked, hf]
        rw [ih acc l hn.2 (fun k hk => hd k (by simp [hk])) h]
        simp [List.filter_cons, hm]

/-! ### Run-wide accumulation lemmas -/

theorem all_items_go_ok_nodup :
    ∀ (crates : List Crate) (acc l : List (Id × String)),
      (acc.map Prod.fst).Nodup → all_items_go crates acc = .ok l →
      (l.map Prod.fst).Nodup := by
  intro crates
  induction crates with
  | nil =>
    intro acc l hn h
    simp only [all_items_go, Except.ok.injEq] at h
    exact h ▸ hn
  | cons c rest ih =>
    intro acc l hn h
    simp only [all_items_go] at h
    match hc : crate_items_of c.index with
    | .error e => rw [hc] at h; exact absurd h (by simp)
    | .ok ci =>
      rw [hc] at h
      exact ih _ l (nodup_keys_merge_items ci acc hn) h

theorem all_items_go_mem_keys :
    ∀ (crates : List Crate) (acc l : List (Id × String)),
      all_items_go crates acc = .ok l →
      ∀ k, k ∈ l.map Prod.fst →
        k ∈ acc.map Prod.fst ∨ ∃ c ∈ crates, k ∈ c.index.map Prod.fst := by
  intro crates
  induction crates with
  | nil =>
    intro acc l h k hk
    simp only [all_items_go, Except.ok.injEq] at h
    exact Or.inl (h ▸ hk)
  | cons c rest ih =>
    intro acc l h k hk
    simp only [all_items_go] at h
    match hc : crate_items_of c.index with
    | .error e => rw [hc] at h; exact absurd h (by simp)
    | .ok ci =>
      rw [hc] at h
      rcases ih _ l h k hk with h1 | h1
      · rcases (keys_merge_items ci acc k).1 h1 with h2 | h2
        · exact Or.inl h2
        · rcases crate_items_go_mem_keys c.index [] ci hc k h2 with h3 | h3
          · simp at h3
          · exact Or.inr ⟨c, by simp, h3⟩
      · obtain ⟨c2, hc2, hk2⟩ := h1
        exact Or.inr ⟨c2, by simp [hc2], hk2⟩

theorem all_items_go_length :
    ∀ (crates : List Crate) (acc l : List (Id × String)),
      (∀ c ∈ crates, (c.index.map Prod.fst).Nodup) →
      crates.Pairwise (fun c1 c2 =>
        ∀ id, id ∈ c1.index.map Prod.fst → id ∉ c2.index.map Prod.fst) →
      (∀ c ∈ crates, ∀ k ∈ c.index.map Prod.fst, k ∉ acc.map Prod.fst) →
      all_items_go crates acc = .ok l →
      l.length = acc.length + (crates.map (fun c =>
        (c.index.filter (fun p => p.2.name.isSome && is_marked p.2.attrs)).length)).sum := by
  intro crates
  induction crates with
  | nil =>
    intro acc l _ _ _ h
    simp only [all_items_go, Except.ok.injEq] at h
    simp [← h]
  | cons c rest ih =>
    intro acc l hnod hpair hdisj h
    simp only [all_items_go] at h
    match hc : crate_items_of c.index with
    | .error e => rw [hc] at h; exact absurd h (by simp)
    | .ok ci =>
      rw [hc] at h
      have hciN : (ci.map Prod.fst).Nodup :=
        crate_items_go_ok_nodup c.index [] ci (by simp) hc
      have hciSub : ∀ k ∈ ci.map Prod.fst, k ∈ c.index.map Prod.fst := by
        intro k hk
        rcases crate_items_go_mem_keys c.index [] ci hc k hk with h1 | h1
        · simp at h1
        · exact h1
      have hciAcc : ∀ k ∈ ci.map Prod.fst, k ∉ acc.map Prod.fst := by
        intro k hk
        exact hdisj c (by simp) k (hciSub k hk)
      have hmerge : merge_items acc ci = acc ++ ci :=
        merge_items_disjoint ci acc hciN hciAcc
      have hciLen : ci.length =
          (c.index.filter (fun p => p.2.name.isSome && is_marked p.2.attrs)).length := by
        have := crate_items_go_length c.index [] ci (hnod c (by simp))
          (by intro k _; simp) hc
        simpa using this
      rw [List.pairwise_cons] at hpair
      have hrest := ih (merge_items acc ci) l
        (fun c2 hc2 => hnod c2 (by simp [hc2])) hpair.2 ?_ h
      · rw [hrest, hmerge]
        simp only [List.length_append, List.map_cons, List.sum_cons]
        rw [hciLen]
        omega
      · intro c2 hc2 k hk
        rw [hmerge]
        simp only [List.map_append, List.mem_append, not_or]
        refine ⟨hdisj c2 (by simp [hc2]) k hk, ?_⟩
        intro hkci
        exact hpair.1 c2 hc2 k (hciSub k hkci) hk

theorem merge_items_nil {ci : List (Id × String)} (hn : (ci.map Prod.fst).Nodup) :
    merge_items [] ci = ci := by
  have := merge_items_disjoint ci [] hn (by intro k _; simp)
  simpa using this

/-! ### Declaration-lookup lemmas -/

theorem get_item_for_id_isSome :
    ∀ (crates : List Crate) (c : Crate) (id : Id),
      c ∈ crates → (lookupA c.index id).isSome →
      (get_item_for_id crates id).isSome := by
  intro crates
  induction crates with
  | nil => intro c id hc _; simp at hc
  | cons c0 rest ih =>
    intro c id hc hs
    rcases List.mem_cons.1 hc with h1 | h1
    · subst h1
      match hl : lookupA c.index id with
      | some it => simp [get_item_for_id, hl]
      | none => rw [hl] at hs; exact absurd hs (by simp)
    · match hl : lookupA c0.index id with
      | some it => simp [get_item_for_id, hl]
      | none =>
        simp only [get_item_for_id, hl]
        exact ih c id h1 hs

/-! ### Filter and find lemmas -/

theorem filterMap_eq_flatten_map {α β : Type} (l : List α) (f : α → Option β) :
    l.filterMap f = (l.map (fun a => (f a).toList)).flatten := by
  induction l with
  | nil => simp
  | cons a rest ih =>
    match hf : f a with
    | some b => simp [List.filterMap_cons, hf, ih]
    | none => simp [List.filterMap_cons, hf, ih]

theorem filter_eq_find_toList {α : Type} (q : α → Bool) :
    ∀ (l : List α), List.Pairwise (fun a b => ¬(q a = true ∧ q b = true)) l →
      l.filter q = (l.find? q).toList := by
  intro l
  induction l with
  | nil => intro _; simp
  | cons a rest ih =>
    intro hp
    rw [List.pairwise_cons] at hp
    by_cases hq : q a = true
    · rw [List.find?_cons_of_pos _ hq, List.filter_cons_of_pos hq]
      have : rest.filter q = [] := by
        rw [List.filter_eq_nil_iff]
        intro b hb hqb
        exact hp.1 b hb ⟨hq, hqb⟩
      simp [this]
    · rw [List.find?_cons_of_neg _ hq, List.filter_cons_of_neg hq]
      exact ih hp.2

/-! ### The claims -/

/-- C1: the claim says that for every attribute string not shaped like an
`unstable(feature = "X", ...)` marker the attribute parser returns `none`
and never errors or aborts.  That holds for the similar-but-different
markers the claim lists (proved below on representative inputs), but it
fails on a blank attribute string: the external outer-attribute grammar
parses blank input to *zero* attributes, and `v.swap_remove(0)`
(main.rs line 34) then panics, aborting the whole load. -/
theorem attr_scan_aborts_on_blank_attribute :
    parse_unstable_feature "unstable_foo(feature = \"x\")" = .ok none
    ∧ parse_unstable_feature "stable(feature = \"x\")" = .ok none
    ∧ parse_unstable_feature "unstable" = .ok none
    ∧ parse_unstable_feature "unstable = \"x\"" = .ok none
    ∧ parse_unstable_feature "not an attribute !!" = .ok none
    ∧ parse_unstable_feature "" =
        .error "swap_remove index (is 0) should be < len (is 0)" :=
  ⟨rfl, rfl, rfl, rfl, rfl, rfl⟩

/-- C2: for an `unstable(...)` attribute, the parser returns the string
value of the first `feature = "..."` entry of the argument list, at
whatever position that entry sits; in particular it returns "networking"
and "io" on the two quoted inputs. -/
theorem parse_unstable_feature_first_claim :
    (∀ (s : String) (nested : List NestedMeta),
        parse_outer_str s = some [Meta.mlist ["unstable"] nested] →
        parse_unstable_feature s = .ok (List.findSome? get_feature_name nested))
    ∧ (∀ (pre post : List NestedMeta) (f : String),
        (∀ x ∈ pre, get_feature_name x = none) →
        List.findSome? get_feature_name
          (pre ++ NestedMeta.meta (Meta.nameValue ["feature"] (Lit.str f)) :: post)
          = some f)
    ∧ parse_unstable_feature "unstable(feature = \"networking\", since = \"1.0\")" =
        .ok (some "networking")
    ∧ parse_unstable_feature "unstable(since = \"1.0\", feature = \"io\")" =
        .ok (some "io") := by
  refine ⟨?_, ?_, rfl, rfl⟩
  · intro s nested hp
    simp [parse_unstable_feature, hp, meta_path, path_get_ident, is_ident]
  · intro pre post f hpre
    induction pre with
    | nil => simp [List.findSome?_cons, get_feature_name, path_get_ident, is_ident]
    | cons x rest ih =>
      have hx : get_feature_name x = none := hpre x (by simp)
      rw [List.cons_append, List.findSome?_cons, hx]
      exact ih (fun y hy => hpre y (by simp [hy]))

/-- Witness for C2 at concrete inputs: the parsed form of the first quoted
attribute, and a first-feature-wins instance. -/
theorem parse_unstable_feature_first_claim_witness :
    parse_unstable_feature "unstable(feature = \"networking\", since = \"1.0\")" =
      .ok (List.findSome? get_feature_name
        [NestedMeta.meta (Meta.nameValue ["feature"] (Lit.str "networking")),
         NestedMeta.meta (Meta.nameValue ["since"] (Lit.str "1.0"))])
    ∧ List.findSome? get_feature_name
        ([NestedMeta.meta (Meta.mpath ["since"])] ++
          NestedMeta.meta (Meta.nameValue ["feature"] (Lit.str "abc")) ::
            [NestedMeta.meta (Meta.nameValue ["feature"] (Lit.str "later"))]) = some "abc" :=
  ⟨parse_unstable_feature_first_claim.1
      "unstable(feature = \"networking\", since = \"1.0\")"
      [NestedMeta.meta (Meta.nameValue ["feature"] (Lit.str "networking")),
       NestedMeta.meta (Meta.nameValue ["since"] (Lit.str "1.0"))] rfl,
   parse_unstable_feature_first_claim.2.1
      [NestedMeta.meta (Meta.mpath ["since"])]
      [NestedMeta.meta (Meta.nameValue ["feature"] (Lit.str "later"))] "abc"
      (by simp [get_feature_name])⟩

/-- C3: the path reconstructor fails fatally (the `assert_eq!` on
main.rs line 93, modelled as `.error`) when the number of loaded sets whose
paths table contains the identifier differs from one, and proceeds exactly
when it is one. -/
theorem extract_item_tree_assert_claim :
    ∀ (crates : List Crate) (id : Id),
      ((crates.filterMap (fun c => lookupA c.paths id)).length ≠ 1 →
        extract_item_tree_for_id crates id = .error "assertion failed: path.len() == 1")
      ∧ ((crates.filterMap (fun c => lookupA c.paths id)).length = 1 →
        ∃ v, extract_item_tree_for_id crates id = .ok v) := by
  intro crates id
  constructor
  · intro h
    match hl : crates.filterMap (fun c => lookupA c.paths id) with
    | [] =>
      unfold extract_item_tree_for_id
      rw [hl]
    | [p] => rw [hl] at h; simp at h
    | p :: q :: rest =>
      unfold extract_item_tree_for_id
      rw [hl]
  · intro h
    match hl : crates.filterMap (fun c => lookupA c.paths id) with
    | [] => rw [hl] at h; simp at h
    | [p] =>
      unfold extract_item_tree_for_id
      rw [hl]
      exact ⟨_, rfl⟩
    | p :: q :: rest => rw [hl] at h; simp at h

/-- Witness for C3: a corpus with no entry for "x" aborts; a corpus with
exactly one entry proceeds. -/
theorem extract_item_tree_assert_claim_witness :
    extract_item_tree_for_id [] "x" = .error "assertion failed: path.len() == 1"
    ∧ ∃ v, extract_item_tree_for_id [⟨[], [("x", ⟨["m"]⟩)]⟩] "x" = .ok v :=
  ⟨(extract_item_tree_assert_claim [] "x").1 (by decide),
   (extract_item_tree_assert_claim [⟨[], [("x", ⟨["m"]⟩)]⟩] "x").2 (by decide)⟩

/-- C8: declaration lookup returns the item of the first set in list order
whose index contains the identifier, and `none` when no set does; the
model is a pure function, so it modifies nothing. -/
theorem get_item_for_id_claim :
    ∀ (crates : List Crate) (id : Id),
      (get_item_for_id crates id = none ↔ ∀ c ∈ crates, lookupA c.index id = none)
      ∧ (∀ (pre : List Crate) (c : Crate) (post : List Crate),
          crates = pre ++ c :: post →
          (∀ c2 ∈ pre, lookupA c2.index id = none) →
          ∀ it, lookupA c.index id = some it →
            get_item_for_id crates id = some it) := by
  intro crates id
  constructor
  · induction crates with
    | nil => simp [get_item_for_id]
    | cons c0 rest ih =>
      match hl : lookupA c0.index id with
      | some it => simp [get_item_for_id, hl]
      | none => simp [get_item_for_id, hl, ih]
  · intro pre
    induction pre generalizing crates with
    | nil =>
      intro c post hcr hpre it hit
      subst hcr
      simp [get_item_for_id, hit]
    | cons c0 rest ih =>
      intro c post hcr hpre it hit
      subst hcr
      have h0 : lookupA c0.index id = none := hpre c0 (by simp)
      simp only [List.cons_append, get_item_for_id, h0]
      exact ih (rest ++ c :: post) c post rfl
        (fun c2 hc2 => hpre c2 (by simp [hc2])) it hit

/-- Witness for C8: with "a" absent from the first set and present in the
second, lookup returns the second set's item. -/
theorem get_item_for_id_claim_witness :
    get_item_for_id
      [⟨[("b", ⟨some "nb", []⟩)], []⟩, ⟨[("a", ⟨some "na", []⟩)], []⟩] "a"
      = some ⟨some "na", []⟩ :=
  (get_item_for_id_claim
      [⟨[("b", ⟨some "nb", []⟩)], []⟩, ⟨[("a", ⟨some "na", []⟩)], []⟩] "a").2
    [⟨[("b", ⟨some "nb", []⟩)], []⟩] ⟨[("a", ⟨some "na", []⟩)], []⟩ []
    rfl (by decide) ⟨some "na", []⟩ (by decide)

/-- C5: each scanned declaration contributes at most one
identifier-to-feature entry — the crate-local map has pairwise-distinct
identifiers, an identifier maps to `f` exactly when its (unique) index
entry is named and its attribute scan yields `f`, and the scan itself takes
the first attribute that parses to a feature name, in attribute-list
order. -/
theorem crate_items_claim :
    ∀ (index : List (Id × Item)) (l : List (Id × String)),
      crate_items_of index = .ok l →
      ((l.map Prod.fst).Nodup
       ∧ ((index.map Prod.fst).Nodup → ∀ (id : Id) (f : String),
            (lookupA l id = some f ↔
              ∃ it, (id, it) ∈ index ∧ it.name.isSome = true
                ∧ find_map_feature it.attrs = .ok (some f)))
       ∧ (∀ (pre : List String) (a : String) (post : List String) (f : String),
            (∀ b ∈ pre, parse_unstable_feature b = .ok none) →
            parse_unstable_feature a = .ok (some f) →
            find_map_feature (pre ++ a :: post) = .ok (some f))) := by
  intro index l h
  refine ⟨crate_items_go_ok_nodup index [] l (by simp) h, ?_, ?_⟩
  · intro hn id f
    have hch := crate_items_go_lookup index [] l hn h id
    rw [hch]
    constructor
    · intro he
      match hidx : lookupA index id with
      | none => rw [hidx] at he; simp [lookupA] at he
      | some it =>
        rw [hidx] at he
        by_cases hname : it.name.isNone = true
        · simp [lookupA, hname] at he
        · match hf : find_map_feature it.attrs with
          | .ok (some f2) =>
            simp only [lookupA, hname, if_false, hf] at he
            have hfe : f2 = f := by simpa using he
            subst hfe
            refine ⟨it, lookupA_mem hidx, ?_, hf⟩
            cases hnm : it.name with
            | none => rw [hnm] at hname; exact absurd rfl hname
            | some n => rfl
          | .ok none => simp [lookupA, hname, hf] at he
          | .error e => simp [lookupA, hname, hf] at he
    · rintro ⟨it, hmem, hsome, hf⟩
      rw [lookupA_of_mem_nodup hn hmem]
      have hname : it.name.isNone = false := by
        cases hnm : it.name
        · rw [hnm] at hsome; exact absurd hsome (by simp)
        · rfl
      simp [lookupA, hname, hf]
  · intro pre a post f hpre hf
    induction pre with
    | nil => simp only [List.nil_append, find_map_feature, hf]
    | cons b rest ih =>
      have hb : parse_unstable_feature b = .ok none := hpre b (by simp)
      simp only [List.cons_append, find_map_feature, hb]
      exact ih (fun b2 hb2 => hpre b2 (by simp [hb2]))

/-- Witness for C5: one named declaration carrying
`unstable(feature = "f")` yields the single entry ("a", "f"). -/
theorem crate_items_claim_witness :
    lookupA [("a", "f")] "a" = some "f" :=
  ((crate_items_claim [("a", ⟨some "x", ["unstable(feature = \"f\")"]⟩)]
      [("a", "f")] rfl).2.1 (by decide) "a" "f").2
    ⟨⟨some "x", ["unstable(feature = \"f\")"]⟩, by decide, by decide, rfl⟩

/-- C7: every identifier appearing in any feature's list of the loaded
FeatureIndex is found by declaration lookup over the documentation sets of
the same load. -/
theorem feature_index_roundtrip_claim :
    ∀ (crates cs : List Crate) (out : List (String × List Id))
      (feat : String) (ids : List Id) (id : Id),
      load_rustdoc_json_metadata crates = .ok (cs, out) →
      (feat, ids) ∈ out → id ∈ ids →
      (get_item_for_id cs id).isSome = true := by
  intro crates cs out feat ids id hload hmem hid
  unfold load_rustdoc_json_metadata at hload
  match hall : all_items_of crates with
  | .error e => rw [hall] at hload; exact absurd hload (by simp)
  | .ok l =>
    rw [hall] at hload
    simp only [Except.ok.injEq, Prod.mk.injEq] at hload
    obtain ⟨hcs, hout⟩ := hload
    have hidall : id ∈ allIds (invert l) := by
      rw [hout]
      exact List.mem_flatten.2 ⟨ids, List.mem_map_of_mem Prod.snd hmem, hid⟩
    have hidl : id ∈ l.map Prod.fst := ((allIds_invert l).mem_iff).1 hidall
    rcases all_items_go_mem_keys crates [] l hall id hidl with h1 | h1
    · simp at h1
    · obtain ⟨c, hc, hk⟩ := h1
      rw [← hcs]
      exact get_item_for_id_isSome crates c id hc ((lookupA_isSome_iff c.index id).2 hk)

/-- Witness for C7 on a one-crate corpus with one marked declaration. -/
theorem feature_index_roundtrip_claim_witness :
    (get_item_for_id [⟨[("a", ⟨some "x", ["unstable(feature = \"f\")"]⟩)], []⟩]
        "a").isSome = true :=
  feature_index_roundtrip_claim
    [⟨[("a", ⟨some "x", ["unstable(feature = \"f\")"]⟩)], []⟩]
    [⟨[("a", ⟨some "x", ["unstable(feature = \"f\")"]⟩)], []⟩]
    [("f", ["a"])] "f" ["a"] "a" rfl (by decide) (by decide)

/-- C10: the FeatureIndex built from the run-wide map contains every
identifier at most once over all its feature lists, and when two sets both
bind the same identifier, the feature recorded by the later-processed set
is the one kept. -/
theorem feature_index_unique_claim :
    (∀ (crates : List Crate) (l : List (Id × String)),
        all_items_of crates = .ok l → (allIds (invert l)).Nodup)
    ∧ (∀ (c1 c2 : Crate) (ci1 ci2 : List (Id × String)) (id : Id) (f1 f2 : String)
        (m : List (Id × String)),
        crate_items_of c1.index = .ok ci1 → crate_items_of c2.index = .ok ci2 →
        lookupA ci1 id = some f1 → lookupA ci2 id = some f2 →
        all_items_of [c1, c2] = .ok m → lookupA m id = some f2) := by
  constructor
  · intro crates l hall
    have hn : (l.map Prod.fst).Nodup := all_items_go_ok_nodup crates [] l (by simp) hall
    exact ((allIds_invert l).symm).nodup hn
  · intro c1 c2 ci1 ci2 id f1 f2 m h1 h2 hl1 hl2 hm
    have hn1 : (ci1.map Prod.fst).Nodup := crate_items_go_ok_nodup c1.index [] ci1 (by simp) h1
    have hn2 : (ci2.map Prod.fst).Nodup := crate_items_go_ok_nodup c2.index [] ci2 (by simp) h2
    have hms : all_items_of [c1, c2] = .ok (merge_items ci1 ci2) := by
      unfold all_items_of all_items_go
      rw [h1]
      simp only [all_items_go]
      rw [h2, merge_items_nil hn1]
    rw [hms] at hm
    have hmm : m = merge_items ci1 ci2 := by
      simpa using hm.symm
    rw [hmm, lookupA_merge_items ci2 ci1 id hn2, hl2]

/-- Witness for C10: two one-declaration sets reusing identifier "a"; the
second set's feature "f2" wins. -/
theorem feature_index_unique_claim_witness :
    (allIds (invert [("a", "f1")])).Nodup
    ∧ lookupA [("a", "f2")] "a" = some "f2" :=
  ⟨feature_index_unique_claim.1
      [⟨[("a", ⟨some "x", ["unstable(feature = \"f1\")"]⟩)], []⟩] [("a", "f1")] rfl,
   feature_index_unique_claim.2
      ⟨[("a", ⟨some "x", ["unstable(feature = \"f1\")"]⟩)], []⟩
      ⟨[("a", ⟨some "y", ["unstable(feature = \"f2\")"]⟩)], []⟩
      [("a", "f1")] [("a", "f2")] "a" "f1" "f2" [("a", "f2")]
      rfl rfl rfl rfl rfl⟩

/-- C6: with pairwise-disjoint identifier spaces, the total identifier
count of the FeatureIndex equals the number of named declarations across
all files whose attribute scan recognizes an unstable feature marker. -/
theorem load_totals_claim :
    ∀ (crates cs : List Crate) (out : List (String × List Id)),
      load_rustdoc_json_metadata crates = .ok (cs, out) →
      (∀ c ∈ crates, (c.index.map Prod.fst).Nodup) →
      crates.Pairwise (fun c1 c2 =>
        ∀ id, id ∈ c1.index.map Prod.fst → id ∉ c2.index.map Prod.fst) →
      (out.map (fun p => p.2.length)).sum =
        (crates.map (fun c =>
          (c.index.filter (fun p => p.2.name.isSome && is_marked p.2.attrs)).length)).sum := by
  intro crates cs out hload hnod hpair
  unfold load_rustdoc_json_metadata at hload
  match hall : all_items_of crates with
  | .error e => rw [hall] at hload; exact absurd hload (by simp)
  | .ok l =>
    rw [hall] at hload
    simp only [Except.ok.injEq, Prod.mk.injEq] at hload
    obtain ⟨hcs, hout⟩ := hload
    have hlen : l.length = (crates.map (fun c =>
        (c.index.filter (fun p => p.2.name.isSome && is_marked p.2.attrs)).length)).sum := by
      have := all_items_go_length crates [] l hnod hpair (by simp) hall
      simpa using this
    have hsum : (out.map (fun p => p.2.length)).sum = (allIds out).length := by
      rw [allIds, List.length_flatten, List.map_map]
      rfl
    rw [hsum, ← hout]
    have hperm := allIds_invert l
    rw [hperm.length_eq, List.length_map]
    exact hlen

/-- Witness for C6: two disjoint one-declaration sets, one marked
declaration each. -/
theorem load_totals_claim_witness :
    ([("f", ["a", "b"])].map
        (fun p : String × List Id => p.2.length)).sum =
      ([⟨[("a", ⟨some "x", ["unstable(feature = \"f\")"]⟩)], []⟩,
        ⟨[("b", ⟨some "y", ["unstable(feature = \"f\")"]⟩)], []⟩].map
          (fun c : Crate =>
            (c.index.filter (fun p => p.2.name.isSome && is_marked p.2.attrs)).length)).sum :=
  load_totals_claim
    [⟨[("a", ⟨some "x", ["unstable(feature = \"f\")"]⟩)], []⟩,
     ⟨[("b", ⟨some "y", ["unstable(feature = \"f\")"]⟩)], []⟩]
    [⟨[("a", ⟨some "x", ["unstable(feature = \"f\")"]⟩)], []⟩,
     ⟨[("b", ⟨some "y", ["unstable(feature = \"f\")"]⟩)], []⟩]
    [("f", ["a", "b"])] rfl (by decide) (by decide)

/-- C9 counterexample: the claim — two runs of the loader over the same
input files give an identical FeatureIndex, including the order inside
each feature's list — is false: the order inside a feature's list follows
the iteration order of the final identifier-to-feature hash map, which is
unspecified.  Two valid iteration orders of the same map content (identity
and reversal) give differently ordered lists on a concrete corpus. -/
theorem run_order_deterministic_cex :
    ¬ (∀ (pi1 pi2 : List (Id × String) → List (Id × String)) (crates : List Crate),
        (∀ l, (pi1 l).Perm l) → (∀ l, (pi2 l).Perm l) →
        run_metadata_loader pi1 crates = run_metadata_loader pi2 crates) := by
  intro h
  have hc := h (fun l => l) List.reverse
    [⟨[("a", ⟨some "x", ["unstable(feature = \"f\")"]⟩),
       ("b", ⟨some "y", ["unstable(feature = \"f\")"]⟩)], []⟩]
    (fun l => List.Perm.refl l) (fun l => List.reverse_perm l)
  rw [show run_metadata_loader (fun l => l)
        [⟨[("a", ⟨some "x", ["unstable(feature = \"f\")"]⟩),
           ("b", ⟨some "y", ["unstable(feature = \"f\")"]⟩)], []⟩] =
      .ok ([⟨[("a", ⟨some "x", ["unstable(feature = \"f\")"]⟩),
             ("b", ⟨some "y", ["unstable(feature = \"f\")"]⟩)], []⟩],
           [("f", ["a", "b"])]) from rfl,
     show run_metadata_loader List.reverse
        [⟨[("a", ⟨some "x", ["unstable(feature = \"f\")"]⟩),
           ("b", ⟨some "y", ["unstable(feature = \"f\")"]⟩)], []⟩] =
      .ok ([⟨[("a", ⟨some "x", ["unstable(feature = \"f\")"]⟩),
             ("b", ⟨some "y", ["unstable(feature = \"f\")"]⟩)], []⟩],
           [("f", ["b", "a"])]) from rfl] at hc
  simp at hc

/-- C9 amended: two runs over the same input files yield FeatureIndexes
with the same documentation sets and the same feature names, and for each
feature the two identifier lists are permutations of each other; the order
inside a list depends on the hash-map iteration order and is not fixed. -/
theorem run_perm_claim :
    ∀ (pi1 pi2 : List (Id × String) → List (Id × String)) (crates : List Crate)
      (o1 o2 : List Crate × List (String × List Id)) (f : String),
      (∀ l, (pi1 l).Perm l) → (∀ l, (pi2 l).Perm l) →
      run_metadata_loader pi1 crates = .ok o1 →
      run_metadata_loader pi2 crates = .ok o2 →
      o1.1 = o2.1 ∧
        ((lookupA o1.2 f = none ∧ lookupA o2.2 f = none)
          ∨ ∃ v1 v2, lookupA o1.2 f = some v1 ∧ lookupA o2.2 f = some v2 ∧ v1.Perm v2) := by
  intro pi1 pi2 crates o1 o2 f hp1 hp2 h1 h2
  unfold run_metadata_loader at h1 h2
  match hall : all_items_of crates with
  | .error e => rw [hall] at h1; exact absurd h1 (by simp)
  | .ok l =>
    rw [hall] at h1
    rw [hall] at h2
    simp only [Except.ok.injEq] at h1 h2
    rw [← h1, ← h2]
    refine ⟨rfl, ?_⟩
    have hb1 : (bucket (pi1 l) f).Perm (bucket l f) := bucket_perm (hp1 l) f
    have hb2 : (bucket (pi2 l) f).Perm (bucket l f) := bucket_perm (hp2 l) f
    simp only [lookupA_invert]
    by_cases hb : bucket l f = []
    · left
      have e1 : bucket (pi1 l) f = [] := (hb ▸ hb1).eq_nil
      have e2 : bucket (pi2 l) f = [] := (hb ▸ hb2).eq_nil
      simp [e1, e2]
    · right
      have e1 : ¬ bucket (pi1 l) f = [] := fun he => hb ((he ▸ hb1).symm.eq_nil ▸ rfl)
      have e2 : ¬ bucket (pi2 l) f = [] := fun he => hb ((he ▸ hb2).symm.eq_nil ▸ rfl)
      refine ⟨bucket (pi1 l) f, bucket (pi2 l) f, ?_, ?_, hb1.trans hb2.symm⟩
      · simp [e1]
      · simp [e2]

/-- Witness for C9's amended statement on the counterexample corpus: the
two runs agree up to a permutation of the "f" list. -/
theorem run_perm_claim_witness :
    (([⟨[("a", ⟨some "x", ["unstable(feature = \"f\")"]⟩),
        ("b", ⟨some "y", ["unstable(feature = \"f\")"]⟩)], []⟩] : List Crate),
      ([("f", ["a", "b"])] : List (String × List Id))).1 =
      (([⟨[("a", ⟨some "x", ["unstable(feature = \"f\")"]⟩),
          ("b", ⟨some "y", ["unstable(feature = \"f\")"]⟩)], []⟩] : List Crate),
        ([("f", ["b", "a"])] : List (String × List Id))).1
    ∧ ((lookupA [("f", ["a", "b"])] "f" = none ∧ lookupA [("f", ["b", "a"])] "f" = none)
        ∨ ∃ v1 v2, lookupA [("f", ["a", "b"])] "f" = some v1
            ∧ lookupA [("f", ["b", "a"])] "f" = some v2 ∧ v1.Perm v2) :=
  run_perm_claim (fun l => l) List.reverse
    [⟨[("a", ⟨some "x", ["unstable(feature = \"f\")"]⟩),
       ("b", ⟨some "y", ["unstable(feature = \"f\")"]⟩)], []⟩]
    ([⟨[("a", ⟨some "x", ["unstable(feature = \"f\")"]⟩),
        ("b", ⟨some "y", ["unstable(feature = \"f\")"]⟩)], []⟩], [("f", ["a", "b"])])
    ([⟨[("a", ⟨some "x", ["unstable(feature = \"f\")"]⟩),
        ("b", ⟨some "y", ["unstable(feature = \"f\")"]⟩)], []⟩], [("f", ["b", "a"])])
    "f" (fun l => List.Perm.refl l) (fun l => List.reverse_perm l) rfl rfl

/-- C4: when the identifier has a unique path summary `p` with `n`
segments and every set's paths table assigns pairwise-distinct paths, the
reconstructor returns exactly `n` levels; level `k` (0-based here) is the
list of identifiers of path-table entries whose path equals the first
`k + 1` segments of `p.path`, over all sets in order; and the last level
(the full path) contains the original identifier. -/
theorem extract_levels_claim :
    ∀ (crates : List Crate) (id : Id) (p : ItemSummary),
      crates.filterMap (fun c => lookupA c.paths id) = [p] →
      (∀ c ∈ crates, c.paths.Pairwise (fun e1 e2 => e1.2.path ≠ e2.2.path)) →
      ∃ levels, extract_item_tree_for_id crates id = .ok levels
        ∧ levels.length = p.path.length
        ∧ (∀ (k : Nat) (hk : k < levels.length),
            levels.get ⟨k, hk⟩ =
              (crates.map (fun c =>
                (c.paths.filter (fun e => decide (e.2.path = p.path.take (k + 1)))).map
                  Prod.fst)).flatten)
        ∧ (∀ hne : levels ≠ [], id ∈ levels.getLast hne) := by
  intro crates id p hp hpw
  have hqpair : ∀ (cand : List String), ∀ c ∈ crates,
      c.paths.Pairwise (fun a b =>
        ¬((fun e => decide (e.2.path = cand)) a = true
          ∧ (fun e => decide (e.2.path = cand)) b = true)) := by
    intro cand c hc
    refine (hpw c hc).imp ?_
    intro a b hne hand
    exact hne ((of_decide_eq_true hand.1).trans (of_decide_eq_true hand.2).symm)
  have hlevel : ∀ (k : Nat),
      crates.filterMap (fun c =>
        (c.paths.find? (fun e => decide (e.2.path = p.path.take (k + 1)))).map Prod.fst) =
      (crates.map (fun c =>
        (c.paths.filter (fun e => decide (e.2.path = p.path.take (k + 1)))).map
          Prod.fst)).flatten := by
    intro k
    rw [filterMap_eq_flatten_map]
    congr 1
    apply List.map_congr_left
    intro c hc
    rw [filter_eq_find_toList _ c.paths (hqpair (p.path.take (k + 1)) c hc)]
    cases c.paths.find? (fun e => decide (e.2.path = p.path.take (k + 1))) with
    | none => rfl
    | some e => rfl
  refine ⟨(List.range p.path.length).map (fun k =>
      crates.filterMap (fun c =>
        (c.paths.find? (fun e => decide (e.2.path = p.path.take (k + 1)))).map Prod.fst)),
    ?_, by simp, ?_, ?_⟩
  · unfold extract_item_tree_for_id
    rw [hp]
  · intro k hk
    rw [List.get_eq_getElem]
    simp only [List.getElem_map, List.getElem_range]
    exact hlevel k
  · intro hne
    have hpos : 0 < p.path.length := by
      by_contra hz
      have h0 : p.path.length = 0 := by omega
      exact hne (by simp [h0])
    have hn1 : p.path.length - 1 + 1 = p.path.length := by omega
    rw [List.getLast_eq_getElem]
    simp only [List.length_map, List.length_range, List.getElem_map, List.getElem_range,
      hn1, List.take_length]
    have hmem : p ∈ crates.filterMap (fun c => lookupA c.paths id) := by
      rw [hp]
      simp
    obtain ⟨c, hcmem, hlook⟩ := List.mem_filterMap.1 hmem
    have hep : (id, p) ∈ c.paths := lookupA_mem hlook
    have hfind : ∃ e0, c.paths.find? (fun e => decide (e.2.path = p.path)) = some e0 := by
      rw [← Option.isSome_iff_exists, List.find?_isSome]
      exact ⟨(id, p), hep, by simp⟩
    obtain ⟨e0, hfind⟩ := hfind
    have heq : e0 = (id, p) := by
      by_contra hnee
      have hsym : Symmetric (fun a b : Id × ItemSummary => a.2.path ≠ b.2.path) :=
        fun a b h => Ne.symm h
      have hb : (fun e : Id × ItemSummary => decide (e.2.path = p.path)) e0 = true :=
        @List.find?_some (Id × ItemSummary)
          (fun e => decide (e.2.path = p.path)) e0 c.paths hfind
      have hq0 : e0.2.path = p.path := of_decide_eq_true hb
      exact (hpw c hcmem).forall hsym (List.mem_of_find?_eq_some hfind) hep hnee hq0
    refine List.mem_filterMap.2 ⟨c, hcmem, ?_⟩
    rw [hfind, heq]
    rfl

/-- Witness for C4 on the spec's example corpus with paths `["mod_a"]`,
`["mod_a","mod_b"]`, `["mod_a","mod_b","target_fn"]`. -/
theorem extract_levels_claim_witness :
    ∃ levels, extract_item_tree_for_id
        [⟨[], [("id_a", ⟨["mod_a"]⟩), ("id_b", ⟨["mod_a", "mod_b"]⟩),
               ("id_t", ⟨["mod_a", "mod_b", "target_fn"]⟩)]⟩] "id_t" = .ok levels
      ∧ levels.length = 3
      ∧ ∀ hne : levels ≠ [], "id_t" ∈ levels.getLast hne := by
  obtain ⟨levels, h1, h2, h3, h4⟩ := extract_levels_claim
    [⟨[], [("id_a", ⟨["mod_a"]⟩), ("id_b", ⟨["mod_a", "mod_b"]⟩),
           ("id_t", ⟨["mod_a", "mod_b", "target_fn"]⟩)]⟩] "id_t"
    ⟨["mod_a", "mod_b", "target_fn"]⟩ (by decide) (by decide)
  exact ⟨levels, h1, h2, h4⟩

end DumpUnstableApi
